import Mathlib

/-!
# Verification of the `ndcube` rotation/state engine (`src/rubik3.cpp`)

A shallow embedding of the core of the program: `Rotation`, `Point` and
`Cube` for a generalized N-dimensional 3-per-side twisty puzzle, together
with the per-point rotation rule, the solved test, the unsolvedness score
and one iteration of the randomized solver loop.

Coordinate vectors `std::array<coord_t, DIMS>` are embedded as functions
`Fin DIMS → ℕ` (all values the program ever stores lie in `{0,1,2}`, far
from any `uint8_t` wrap-around).  `int`-valued metrics are embedded as `ℤ`.
The process-wide random generator is replaced by explicit parameters: the
solver step takes the drawn rotation and the drawn `rand() % 100` value as
arguments.
-/

namespace Ndcube

/-- Worker for `ipow`, with an explicit fuel argument so that the source's
recursion on `exp / 2` is structural (the fuel is initialized to `exp`,
which bounds the number of halving steps; `ipowAux_eq` below proves the
value is `result * base ^ exp` whenever `exp ≤ fuel`, so the fuel never
runs out in `ipow`). -/
def ipowAux : ℕ → ℕ → ℕ → ℕ → ℕ
  | _, _, 0, result => result
  | 0, _, _, result => result
  | fuel + 1, base, exp, result =>
      ipowAux fuel (base * base) (exp / 2)
        (if exp % 2 = 1 then result * base else result)

/-- The function `ipow` from the source: fast exponentiation,
`ipow(base, exp, result) = exp < 1 ? result : ipow(base*base, exp/2, (exp%2) ? result*base : result)`. -/
def ipow (base : ℕ) (exp : ℕ) (result : ℕ := 1) : ℕ :=
  ipowAux exp base exp result

/-- The `Side` enum: `FRONT = 0`, `BACK = 2`. -/
inductive Side where
  | FRONT : Side
  | BACK : Side
deriving DecidableEq

/-- The numeric value of a `Side` (the enum's underlying value). -/
def Side.val : Side → ℕ
  | .FRONT => 0
  | .BACK => 2

/-- The `Rotation` struct: the fixed axis, the `from` axis, the `to` axis
(named `from_axis`/`to_axis` after the local names in `Point::rotate`,
since `from` is reserved in Lean), and the affected side.  The indices are
embedded as `Fin DIMS`, matching the assertion `axis < DIMS && from < DIMS
&& to < DIMS` in `Point::rotate`. -/
structure Rotation (DIMS : ℕ) where
  axis : Fin DIMS
  from_axis : Fin DIMS
  to_axis : Fin DIMS
  side : Side
deriving DecidableEq

/-- The remaining assertion of `Point::rotate`: the three axes are pairwise
distinct. -/
def Rotation.Valid {DIMS : ℕ} (r : Rotation DIMS) : Prop :=
  r.axis ≠ r.from_axis ∧ r.from_axis ≠ r.to_axis ∧ r.to_axis ≠ r.axis

instance {DIMS : ℕ} (r : Rotation DIMS) : Decidable r.Valid :=
  inferInstanceAs (Decidable (_ ∧ _ ∧ _))

/-- The nested `switch` of `Point::rotate`, as a table sending the old pair
`(coords[from], coords[to])` to the new pair.  The `(1,1)` case writes
nothing, i.e. keeps `(1,1)`; the `default:` branches (unreachable for the
values `{0,1,2}` the program stores, and guarded by `assert(false)`) also
write nothing, i.e. keep the pair. -/
def rotTable : ℕ → ℕ → ℕ × ℕ
  | 0, 0 => (2, 0)
  | 0, 1 => (1, 0)
  | 0, 2 => (0, 0)
  | 1, 0 => (2, 1)
  | 1, 1 => (1, 1)
  | 1, 2 => (0, 1)
  | 2, 0 => (2, 2)
  | 2, 1 => (1, 2)
  | 2, 2 => (0, 2)
  | a, b => (a, b)

/-- The table of spec §4.2, transcribed from its words: "The exact table
(old `from`,`to` → new `from`,`to`): (0,0)→(2,0); (0,1)→(1,0);
(0,2)→(0,0); (1,0)→(2,1); (1,1)→(1,1) [identity]; (1,2)→(0,1);
(2,0)→(2,2); (2,1)→(1,2); (2,2)→(0,2)."  Outside the nine listed keys the
spec says nothing; the pair is kept unchanged here, which only matters for
values the program never stores. -/
def specTable : ℕ → ℕ → ℕ × ℕ
  | 0, 0 => (2, 0)
  | 0, 1 => (1, 0)
  | 0, 2 => (0, 0)
  | 1, 0 => (2, 1)
  | 1, 1 => (1, 1)
  | 1, 2 => (0, 1)
  | 2, 0 => (2, 2)
  | 2, 1 => (1, 2)
  | 2, 2 => (0, 2)
  | a, b => (a, b)

/-- The `Point` struct: original coordinates, current coordinates, and the
orientation vector. -/
@[ext]
structure Point (DIMS : ℕ) where
  original_coords : Fin DIMS → ℕ
  coords : Fin DIMS → ℕ
  orientation : Fin DIMS → ℕ
deriving DecidableEq

/-- Adjacent-pairs sortedness of a list, exactly as `std::is_sorted`
checks it: no element is greater than its successor. -/
def isSortedList : List ℕ → Bool
  | a :: b :: rest => decide (a ≤ b) && isSortedList (b :: rest)
  | _ => true

namespace Point

variable {DIMS : ℕ}

/-- The function `Point::create`: both coordinate fields are the input,
the orientation is `iota`, i.e. `0, 1, ..., DIMS-1`. -/
def create (input : Fin DIMS → ℕ) : Point DIMS :=
  { original_coords := input, coords := input, orientation := fun d => d.val }

/-- The coordinate vector decoded by `Point::from_index`:
`vals[index] = i / ipow(3, index) % 3`. -/
def fromIndexCoords (DIMS : ℕ) (i : ℕ) : Fin DIMS → ℕ :=
  fun d => i / ipow 3 d.val % 3

/-- The function `Point::from_index`. -/
def from_index (DIMS : ℕ) (i : ℕ) : Point DIMS :=
  create (fromIndexCoords DIMS i)

/-- The method `Point::rotate`: early return unless the point lies on the
affected slice; otherwise swap `orientation[from]` and `orientation[to]`
and apply the `rotTable` update to `(coords[from], coords[to])`. -/
def rotate (p : Point DIMS) (r : Rotation DIMS) : Point DIMS :=
  if p.coords r.axis ≠ r.side.val then p
  else
    let t := rotTable (p.coords r.from_axis) (p.coords r.to_axis)
    { p with
      orientation :=
        Function.update (Function.update p.orientation r.from_axis
          (p.orientation r.to_axis)) r.to_axis (p.orientation r.from_axis),
      coords :=
        Function.update (Function.update p.coords r.from_axis t.1)
          r.to_axis t.2 }

/-- The method `Point::is_in_original_position`: `coords == original_coords`. -/
def is_in_original_position (p : Point DIMS) : Bool :=
  decide (p.coords = p.original_coords)

/-- The method `Point::is_in_original_orientation`: `std::is_sorted` over
the orientation vector. -/
def is_in_original_orientation (p : Point DIMS) : Bool :=
  isSortedList (List.ofFn p.orientation)

/-- The method `Point::is_center`: exactly `DIMS - 1` coordinates equal `1`. -/
def is_center (p : Point DIMS) : Bool :=
  decide ((List.ofFn p.coords).count 1 = DIMS - 1)

/-- The method `Point::dist_from_original`: the sum over all axes of
`std::abs(coords[d] - original_coords[d])` (computed in `int`). -/
def dist_from_original (p : Point DIMS) : ℤ :=
  ∑ d : Fin DIMS, |(p.coords d : ℤ) - (p.original_coords d : ℤ)|

/-- The method `Point::incorrectness`: `dist_from_original() + smallmod * 10`
where `smallmod` is `0` in original orientation and `1` otherwise. -/
def incorrectness (p : Point DIMS) : ℤ :=
  p.dist_from_original + (if p.is_in_original_orientation then 0 else 1) * 10

end Point

/-- The `Cube` struct: the ordered collection of all `NUM_POINTS = ipow(3,
DIMS)` points. -/
@[ext]
structure Cube (DIMS : ℕ) where
  points : List (Point DIMS)
deriving DecidableEq

namespace Cube

variable {DIMS : ℕ}

/-- The `Cube` constructor: `points[idx] = Point::from_index(idx)` for
`idx < NUM_POINTS`. -/
def new (DIMS : ℕ) : Cube DIMS :=
  { points := (List.range (ipow 3 DIMS)).map (Point.from_index DIMS) }

/-- The method `Cube::rotate`: apply `Point::rotate(r)` to every point. -/
def rotate (c : Cube DIMS) (r : Rotation DIMS) : Cube DIMS :=
  { points := c.points.map (fun p => p.rotate r) }

/-- The method `Cube::rotate_n`: apply `rotate(r)` `n` times. -/
def rotate_n (c : Cube DIMS) (r : Rotation DIMS) : ℕ → Cube DIMS
  | 0 => c
  | n + 1 => (c.rotate r).rotate_n r n

/-- The method `Cube::undo_rotation`: apply the rotation three more times. -/
def undo_rotation (c : Cube DIMS) (r : Rotation DIMS) : Cube DIMS :=
  c.rotate_n r 3

/-- The method `Cube::is_solved`: every point is in its original position,
and in its original orientation or a center. -/
def is_solved (c : Cube DIMS) : Bool :=
  c.points.all fun p =>
    p.is_in_original_position && (p.is_in_original_orientation || p.is_center)

/-- The method `Cube::unsolvedness`: the sum of `incorrectness()` over all
points. -/
def unsolvedness (c : Cube DIMS) : ℤ :=
  (c.points.map Point.incorrectness).sum

/-- One iteration of the `Cube::solve` loop body, with the two random draws
(`Rotation::random` and `rand() % 100`) passed in explicitly.  The input is
the cube state and the accepted-move history; the output is the state and
history after the iteration. -/
def solveStep (c : Cube DIMS) (hist : List (Rotation DIMS)) (r : Rotation DIMS)
    (v : ℕ) : Cube DIMS × List (Rotation DIMS) :=
  let last_unsolvedness := c.unsolvedness
  let c1 := c.rotate r
  let hist1 := hist ++ [r]
  let current_unsolvedness := c1.unsolvedness
  if current_unsolvedness > last_unsolvedness then
    if v < 90 then (c1.undo_rotation r, hist1.dropLast) else (c1, hist1)
  else
    if v < 10 then (c1.undo_rotation r, hist1.dropLast) else (c1, hist1)

/-- The `Cube::solve` loop over an explicit finite stream of random draws:
the loop exits as soon as `is_solved()` holds, and otherwise runs
`solveStep` on the next draw.  (The source's loop is unbounded; the stream
plays the role of fuel.) -/
def solveRun (c : Cube DIMS) (hist : List (Rotation DIMS)) :
    List (Rotation DIMS × ℕ) → Cube DIMS × List (Rotation DIMS)
  | [] => (c, hist)
  | (r, v) :: rest =>
      if c.is_solved then (c, hist)
      else
        let s := c.solveStep hist r v
        solveRun s.1 s.2 rest

end Cube

/-- The error taxonomy of the spec's boundary interface (§7). -/
inductive CubeError where
  | InvalidDimension : CubeError
deriving DecidableEq

/-- Modelled from the spec: the repository's source instantiates `Cube` at
a compile-time dimension and has no run-time dimension check; spec §6's
`Cube::new(dims)`, which "fails with `InvalidDimension` if `dims < 3`" and
otherwise constructs the solved cube of side 3 in `dims` dimensions, is
not in `src/`.  It is modelled here literally from those words. -/
def Cube.new_checked (dims : ℕ) : Except CubeError (Cube dims) :=
  if dims < 3 then .error .InvalidDimension else .ok (Cube.new dims)

/-- The states of a cube constructible through the program's interface:
the freshly constructed cube, and anything reachable from it by valid
rotations. -/
inductive Reachable : {DIMS : ℕ} → Cube DIMS → Prop where
  | base (DIMS : ℕ) : Reachable (Cube.new DIMS)
  | step {DIMS : ℕ} {c : Cube DIMS} (r : Rotation DIMS) :
      Reachable c → r.Valid → Reachable (c.rotate r)

/-- Application of a list of rotations in order (used to exhibit concrete
reachable states). -/
def applyWord {DIMS : ℕ} (c : Cube DIMS) (ws : List (Rotation DIMS)) : Cube DIMS :=
  ws.foldl Cube.rotate c

/-- A concrete rotation for `DIMS = 3`: around axis 0, from axis 1 to
axis 2, on the front slice. -/
def g1 : Rotation 3 := ⟨0, 1, 2, .FRONT⟩

/-- A concrete rotation for `DIMS = 3`: around axis 1, from axis 0 to
axis 2, on the front slice. -/
def g2 : Rotation 3 := ⟨1, 0, 2, .FRONT⟩

/-- The word `(g1 g2)^63`.  Its net effect on a fresh 3-dimensional cube
is the identity on every point's position and on every non-center point's
orientation, while the two face centers fixed by `g1` and `g2`
respectively are left with a swapped (hence unsorted) orientation. -/
def c3word : List (Rotation 3) :=
  (List.replicate 63 [g1, g2]).flatten

/-- The reachable state witnessing that `is_solved` and `unsolvedness = 0`
disagree: all points are back in their original positions and all
orientation damage sits on two center points, which `is_solved` exempts
but `incorrectness` penalizes with `+10` each. -/
def c3cube : Cube 3 :=
  applyWord (Cube.new 3) c3word

/-- The spec's mixed-radix-3 re-encoding of a coordinate vector:
`sum of coords[d] * 3^d`. -/
def toIndex {DIMS : ℕ} (c : Fin DIMS → ℕ) : ℕ :=
  ∑ d : Fin DIMS, c d * 3 ^ d.val

/-- Validity of a coordinate vector: every component lies in `{0,1,2}`. -/
def validVec {DIMS : ℕ} (c : Fin DIMS → ℕ) : Prop :=
  ∀ d, c d < 3

/-- The coordinate vectors of the freshly constructed cube, in index
order: the full `{0,1,2}^DIMS` grid. -/
def gridCoords (DIMS : ℕ) : List (Fin DIMS → ℕ) :=
  (List.range (3 ^ DIMS)).map (Point.fromIndexCoords DIMS)

/-- The `rotTable` update viewed as a self-map of pairs. -/
def tStep (x : ℕ × ℕ) : ℕ × ℕ := rotTable x.1 x.2

/-- The action of `Point::rotate` on the current-coordinates field alone
(the update reads nothing but `coords`, so it factors through this map). -/
def rotateCoords {DIMS : ℕ} (r : Rotation DIMS) (c : Fin DIMS → ℕ) :
    Fin DIMS → ℕ :=
  if c r.axis ≠ r.side.val then c
  else
    Function.update (Function.update c r.from_axis
      (rotTable (c r.from_axis) (c r.to_axis)).1) r.to_axis
      (rotTable (c r.from_axis) (c r.to_axis)).2

/-! ## Arithmetic facts about `ipow` -/

theorem ipowAux_eq (fuel : ℕ) : ∀ base exp result : ℕ, exp ≤ fuel →
    ipowAux fuel base exp result = result * base ^ exp := by
  induction fuel with
  | zero =>
      intro base exp result h
      interval_cases exp
      simp [ipowAux]
  | succ fuel ih =>
      intro base exp result h
      match exp with
      | 0 => simp [ipowAux]
      | e + 1 =>
          rw [show ipowAux (fuel + 1) base (e + 1) result =
                ipowAux fuel (base * base) ((e + 1) / 2)
                  (if (e + 1) % 2 = 1 then result * base else result) from rfl,
            ih _ _ _ (by omega)]
          have hbb : base * base = base ^ 2 := (sq base).symm
          rcases Nat.mod_two_eq_zero_or_one (e + 1) with hm | hm
          · rw [if_neg (by omega), hbb, ← pow_mul,
              show 2 * ((e + 1) / 2) = e + 1 by omega]
          · rw [if_pos hm, hbb, ← pow_mul, mul_assoc, ← pow_succ',
              show 2 * ((e + 1) / 2) + 1 = e + 1 by omega]

theorem ipow_eq (base exp result : ℕ) : ipow base exp result = result * base ^ exp :=
  ipowAux_eq exp base exp result le_rfl

theorem ipow_eq_pow (base exp : ℕ) : ipow base exp = base ^ exp := by
  rw [ipow_eq, one_mul]

/-! ## The position-update table -/

theorem tStep_four : ∀ x : ℕ × ℕ, tStep (tStep (tStep (tStep x))) = x := by
  rintro ⟨a, b⟩
  match a, b with
  | 0, 0 => rfl
  | 0, 1 => rfl
  | 0, 2 => rfl
  | 1, 0 => rfl
  | 1, 1 => rfl
  | 1, 2 => rfl
  | 2, 0 => rfl
  | 2, 1 => rfl
  | 2, 2 => rfl
  | 0, b + 3 => rfl
  | 1, b + 3 => rfl
  | 2, b + 3 => rfl
  | a + 3, b => rfl

theorem rotTable_eq_specTable : ∀ a : ℕ, a < 3 → ∀ b : ℕ, b < 3 →
    rotTable a b = specTable a b := by decide

/-! ## Pointwise behavior of `Point.rotate` -/

namespace Point

variable {DIMS : ℕ} (p : Point DIMS) (r : Rotation DIMS)

theorem rotate_of_ne (h : p.coords r.axis ≠ r.side.val) : p.rotate r = p := by
  rw [rotate, if_pos h]

theorem rotate_original : (p.rotate r).original_coords = p.original_coords := by
  rw [rotate]; split <;> rfl

theorem rotate_coords_from (h : p.coords r.axis = r.side.val)
    (hft : r.from_axis ≠ r.to_axis) :
    (p.rotate r).coords r.from_axis =
      (rotTable (p.coords r.from_axis) (p.coords r.to_axis)).1 := by
  rw [rotate, if_neg (not_not_intro h)]
  simp only [Function.update_noteq hft, Function.update_same]

theorem rotate_coords_to (h : p.coords r.axis = r.side.val) :
    (p.rotate r).coords r.to_axis =
      (rotTable (p.coords r.from_axis) (p.coords r.to_axis)).2 := by
  rw [rotate, if_neg (not_not_intro h)]
  simp only [Function.update_same]

theorem rotate_coords_other (d : Fin DIMS) (hdf : d ≠ r.from_axis)
    (hdt : d ≠ r.to_axis) : (p.rotate r).coords d = p.coords d := by
  rw [rotate]
  split
  · rfl
  · simp only [Function.update_noteq hdt, Function.update_noteq hdf]

theorem rotate_coords_axis (hv : r.Valid) :
    (p.rotate r).coords r.axis = p.coords r.axis :=
  rotate_coords_other p r r.axis hv.1 (Ne.symm hv.2.2)

theorem rotate_orientation_from (h : p.coords r.axis = r.side.val)
    (hft : r.from_axis ≠ r.to_axis) :
    (p.rotate r).orientation r.from_axis = p.orientation r.to_axis := by
  rw [rotate, if_neg (not_not_intro h)]
  simp only [Function.update_noteq hft, Function.update_same]

theorem rotate_orientation_to (h : p.coords r.axis = r.side.val) :
    (p.rotate r).orientation r.to_axis = p.orientation r.from_axis := by
  rw [rotate, if_neg (not_not_intro h)]
  simp only [Function.update_same]

theorem rotate_orientation_other (d : Fin DIMS) (hdf : d ≠ r.from_axis)
    (hdt : d ≠ r.to_axis) : (p.rotate r).orientation d = p.orientation d := by
  rw [rotate]
  split
  · rfl
  · simp only [Function.update_noteq hdt, Function.update_noteq hdf]

/-- The pair `(coords[from], coords[to])` evolves by one `tStep` on the
affected slice. -/
theorem rotate_coords_pair (h : p.coords r.axis = r.side.val)
    (hft : r.from_axis ≠ r.to_axis) :
    ((p.rotate r).coords r.from_axis, (p.rotate r).coords r.to_axis) =
      tStep (p.coords r.from_axis, p.coords r.to_axis) := by
  rw [rotate_coords_from p r h hft, rotate_coords_to p r h]; rfl

/-- Two applications of the same rotation restore the orientation of an
affected point (the swap is an involution). -/
theorem rotate_rotate_orientation (h : p.coords r.axis = r.side.val)
    (hv : r.Valid) :
    ((p.rotate r).rotate r).orientation = p.orientation := by
  obtain ⟨haf, hft, hta⟩ := hv
  have h1 : (p.rotate r).coords r.axis = r.side.val := by
    rw [rotate_coords_other p r r.axis haf (Ne.symm hta)]; exact h
  funext d
  by_cases hdf : d = r.from_axis
  · subst hdf
    rw [rotate_orientation_from _ r h1 hft, rotate_orientation_to p r h]
  by_cases hdt : d = r.to_axis
  · subst hdt
    rw [rotate_orientation_to _ r h1, rotate_orientation_from p r h hft]
  · rw [rotate_orientation_other _ r d hdf hdt, rotate_orientation_other p r d hdf hdt]

/-- Order four: applying the same valid rotation four times to a point is
the identity, on coordinates and orientation alike. -/
theorem rotate_four (hv : r.Valid) :
    (((p.rotate r).rotate r).rotate r).rotate r = p := by
  obtain ⟨haf, hft, hta⟩ := hv
  by_cases h : p.coords r.axis = r.side.val
  · have stay : ∀ q : Point DIMS, q.coords r.axis = r.side.val →
        (q.rotate r).coords r.axis = r.side.val := by
      intro q hq
      rw [rotate_coords_other q r r.axis haf (Ne.symm hta)]; exact hq
    have h1 : (p.rotate r).coords r.axis = r.side.val := stay _ h
    have h2 : ((p.rotate r).rotate r).coords r.axis = r.side.val := stay _ h1
    have h3 : (((p.rotate r).rotate r).rotate r).coords r.axis = r.side.val := stay _ h2
    have hpair : ((((p.rotate r).rotate r).rotate r).rotate r).coords r.from_axis =
          p.coords r.from_axis ∧
        ((((p.rotate r).rotate r).rotate r).rotate r).coords r.to_axis =
          p.coords r.to_axis := by
      have e4 := rotate_coords_pair (((p.rotate r).rotate r).rotate r) r h3 hft
      rw [rotate_coords_pair ((p.rotate r).rotate r) r h2 hft,
        rotate_coords_pair (p.rotate r) r h1 hft,
        rotate_coords_pair p r h hft, tStep_four] at e4
      exact ⟨congrArg Prod.fst e4, congrArg Prod.snd e4⟩
    ext d
    · rw [rotate_original, rotate_original, rotate_original, rotate_original]
    · by_cases hdf : d = r.from_axis
      · subst hdf; exact hpair.1
      by_cases hdt : d = r.to_axis
      · subst hdt; exact hpair.2
      · rw [rotate_coords_other _ r d hdf hdt, rotate_coords_other _ r d hdf hdt,
          rotate_coords_other _ r d hdf hdt, rotate_coords_other _ r d hdf hdt]
    · have o2 := rotate_rotate_orientation ((p.rotate r).rotate r) r h2 ⟨haf, hft, hta⟩
      have o1 := rotate_rotate_orientation p r h ⟨haf, hft, hta⟩
      rw [o2, o1]
  · rw [rotate_of_ne p r h, rotate_of_ne p r h, rotate_of_ne p r h, rotate_of_ne p r h]

end Point

/-! ## Cube-level consequences -/

namespace Cube

variable {DIMS : ℕ} (c : Cube DIMS) (r : Rotation DIMS)

theorem rotate_points : (c.rotate r).points = c.points.map (fun p => p.rotate r) :=
  rfl

theorem rotate_rotate_rotate_rotate (hv : r.Valid) :
    (((c.rotate r).rotate r).rotate r).rotate r = c := by
  apply Cube.ext
  rw [rotate_points, rotate_points, rotate_points, rotate_points,
    List.map_map, List.map_map, List.map_map]
  exact List.map_id'' (fun p => Point.rotate_four p r hv) c.points

theorem rotate_n_four (hv : r.Valid) : c.rotate_n r 4 = c :=
  rotate_rotate_rotate_rotate c r hv

theorem rotate_then_undo (hv : r.Valid) : (c.rotate r).undo_rotation r = c :=
  rotate_rotate_rotate_rotate c r hv

/-- Characterization of one solver iteration: the move is undone (state
restored, history unchanged) exactly when the acceptance test fails, and
kept (state advanced, move appended) otherwise. -/
theorem solveStep_eq (hist : List (Rotation DIMS)) (v : ℕ) (hv : r.Valid) :
    c.solveStep hist r v =
      if (c.rotate r).unsolvedness > c.unsolvedness then
        if v < 90 then (c, hist) else (c.rotate r, hist ++ [r])
      else
        if v < 10 then (c, hist) else (c.rotate r, hist ++ [r]) := by
  dsimp only [solveStep]
  rw [rotate_then_undo c r hv, List.dropLast_concat]

end Cube

/-! ## Sortedness and the freshly constructed cube -/

theorem isSortedList_iff_chain (l : List ℕ) :
    isSortedList l = true ↔ l.Chain' (· ≤ ·) := by
  induction l with
  | nil => simp [isSortedList]
  | cons a l ih =>
      cases l with
      | nil => simp [isSortedList]
      | cons b t =>
          rw [isSortedList, List.chain'_cons, Bool.and_eq_true, decide_eq_true_eq, ih]

theorem isSortedList_ofFn_val (n : ℕ) :
    isSortedList (List.ofFn fun d : Fin n => d.val) = true := by
  rw [isSortedList_iff_chain, List.chain'_iff_get]
  intro i h
  simp only [List.get_ofFn, List.length_ofFn] at *
  simp [Fin.cast]

namespace Point

variable {DIMS : ℕ}

theorem create_position (input : Fin DIMS → ℕ) :
    (create input).is_in_original_position = true := by
  simp [create, is_in_original_position]

theorem create_orientation (input : Fin DIMS → ℕ) :
    (create input).is_in_original_orientation = true :=
  isSortedList_ofFn_val DIMS

theorem create_incorrectness (input : Fin DIMS → ℕ) :
    (create input).incorrectness = 0 := by
  rw [incorrectness, create_orientation]
  simp [dist_from_original, create]

end Point

namespace Cube

theorem new_is_solved (DIMS : ℕ) : (Cube.new DIMS).is_solved = true := by
  rw [is_solved, List.all_eq_true]
  intro p hp
  rw [new] at hp
  obtain ⟨i, _, rfl⟩ := List.mem_map.mp hp
  rw [Point.from_index, Point.create_position, Point.create_orientation]
  rfl

theorem new_unsolvedness (DIMS : ℕ) : (Cube.new DIMS).unsolvedness = 0 := by
  rw [unsolvedness, new, List.map_map]
  apply List.sum_eq_zero
  intro x hx
  obtain ⟨i, _, rfl⟩ := List.mem_map.mp hx
  exact Point.create_incorrectness _

end Cube

/-! ## Mixed-radix-3 encoding and decoding -/

theorem fromIndexCoords_apply (DIMS i : ℕ) (d : Fin DIMS) :
    Point.fromIndexCoords DIMS i d = i / 3 ^ d.val % 3 := by
  rw [Point.fromIndexCoords, ipow_eq_pow]

theorem toIndex_succ {n : ℕ} (c : Fin (n + 1) → ℕ) :
    toIndex c = c 0 + 3 * toIndex (fun d : Fin n => c d.succ) := by
  rw [toIndex, Fin.sum_univ_succ, toIndex, Finset.mul_sum]
  congr 1
  · simp
  · exact Finset.sum_congr rfl fun d _ => by rw [Fin.val_succ, pow_succ]; ring

theorem toIndex_lt : ∀ (n : ℕ) (c : Fin n → ℕ), validVec c → toIndex c < 3 ^ n := by
  intro n
  induction n with
  | zero => intro c _; simp [toIndex]
  | succ n ih =>
      intro c hc
      rw [toIndex_succ]
      have h0 : c 0 < 3 := hc 0
      have ht : toIndex (fun d : Fin n => c d.succ) < 3 ^ n := ih _ fun d => hc d.succ
      have hp : 3 ^ (n + 1) = 3 ^ n * 3 := pow_succ 3 n
      omega

theorem digit_toIndex : ∀ (n : ℕ) (c : Fin n → ℕ), validVec c →
    ∀ d : Fin n, toIndex c / 3 ^ d.val % 3 = c d := by
  intro n
  induction n with
  | zero => intro c _ d; exact d.elim0
  | succ n ih =>
      intro c hc d
      rw [toIndex_succ]
      induction d using Fin.cases with
      | zero =>
          rw [Fin.val_zero, pow_zero, Nat.div_one, Nat.add_mul_mod_self_left,
            Nat.mod_eq_of_lt (hc 0)]
      | succ d =>
          rw [Fin.val_succ, pow_succ', ← Nat.div_div_eq_div_mul,
            Nat.add_mul_div_left _ _ (by omega : 0 < 3),
            Nat.div_eq_of_lt (hc 0), Nat.zero_add]
          exact ih (fun e : Fin n => c e.succ) (fun e => hc e.succ) d

/-- Decoding after encoding is the identity on valid coordinate vectors:
the fresh grid contains every vector of `{0,1,2}^DIMS`. -/
theorem fromIndexCoords_toIndex {n : ℕ} (c : Fin n → ℕ) (hc : validVec c) :
    Point.fromIndexCoords n (toIndex c) = c := by
  funext d
  rw [fromIndexCoords_apply]
  exact digit_toIndex n c hc d

theorem validVec_fromIndexCoords (DIMS i : ℕ) :
    validVec (Point.fromIndexCoords DIMS i) := by
  intro d
  rw [fromIndexCoords_apply]
  exact Nat.mod_lt _ (by omega)

/-- Encoding after decoding is the identity on indices below `3 ^ DIMS`. -/
theorem toIndex_fromIndexCoords : ∀ (n i : ℕ), i < 3 ^ n →
    toIndex (Point.fromIndexCoords n i) = i := by
  intro n
  induction n with
  | zero =>
      intro i hi
      interval_cases i
      simp [toIndex]
  | succ n ih =>
      intro i hi
      rw [toIndex_succ]
      have htail : (fun d : Fin n => Point.fromIndexCoords (n + 1) i d.succ) =
          Point.fromIndexCoords n (i / 3) := by
        funext d
        rw [fromIndexCoords_apply, fromIndexCoords_apply, Fin.val_succ, pow_succ',
          ← Nat.div_div_eq_div_mul]
      have hdiv : i / 3 < 3 ^ n := by
        have hp : 3 ^ (n + 1) = 3 ^ n * 3 := pow_succ 3 n
        omega
      rw [htail, ih _ hdiv, fromIndexCoords_apply, Fin.val_zero, pow_zero,
        Nat.div_one, Nat.mod_add_div]

/-! ## Rotation as a permutation of the coordinate grid -/

theorem multiset_map_coe {α β : Type u_1} (f : α → β) (l : List α) :
    Multiset.map f (l : Multiset α) = ((l.map f : List β) : Multiset β) :=
  rfl

theorem Point.rotate_coords_eq {DIMS : ℕ} (p : Point DIMS) (r : Rotation DIMS) :
    (p.rotate r).coords = rotateCoords r p.coords := by
  rw [Point.rotate, rotateCoords]
  by_cases h : p.coords r.axis ≠ r.side.val
  · rw [if_pos h, if_pos h]
  · rw [if_neg h, if_neg h]

theorem rotateCoords_four {DIMS : ℕ} (r : Rotation DIMS) (hv : r.Valid)
    (c : Fin DIMS → ℕ) :
    rotateCoords r (rotateCoords r (rotateCoords r (rotateCoords r c))) = c := by
  have h := Point.rotate_four ⟨c, c, c⟩ r hv
  have e := congrArg Point.coords h
  rw [Point.rotate_coords_eq, Point.rotate_coords_eq, Point.rotate_coords_eq,
    Point.rotate_coords_eq] at e
  exact e

theorem rotateCoords_injective {DIMS : ℕ} (r : Rotation DIMS) (hv : r.Valid) :
    Function.Injective (rotateCoords r) := by
  intro a b hab
  rw [← rotateCoords_four r hv a, hab, rotateCoords_four r hv b]

theorem rotTable_lt : ∀ a : ℕ, a < 3 → ∀ b : ℕ, b < 3 →
    (rotTable a b).1 < 3 ∧ (rotTable a b).2 < 3 := by decide

theorem validVec_rotateCoords {DIMS : ℕ} (r : Rotation DIMS)
    {c : Fin DIMS → ℕ} (hc : validVec c) : validVec (rotateCoords r c) := by
  intro d
  rw [rotateCoords]
  split
  · exact hc d
  · have hlt := rotTable_lt (c r.from_axis) (hc r.from_axis) (c r.to_axis) (hc r.to_axis)
    by_cases hdt : d = r.to_axis
    · subst hdt; rw [Function.update_same]; exact hlt.2
    rw [Function.update_noteq hdt]
    by_cases hdf : d = r.from_axis
    · subst hdf; rw [Function.update_same]; exact hlt.1
    · rw [Function.update_noteq hdf]; exact hc d

theorem mem_gridCoords {DIMS : ℕ} (v : Fin DIMS → ℕ) :
    v ∈ gridCoords DIMS ↔ validVec v := by
  constructor
  · rintro hm
    obtain ⟨i, _, rfl⟩ := List.mem_map.mp hm
    exact validVec_fromIndexCoords DIMS i
  · intro hv
    rw [gridCoords]
    refine List.mem_map.mpr ⟨toIndex v, List.mem_range.mpr (toIndex_lt DIMS v hv), ?_⟩
    exact fromIndexCoords_toIndex v hv

theorem gridCoords_nodup (DIMS : ℕ) : (gridCoords DIMS).Nodup := by
  rw [gridCoords]
  refine List.Nodup.map_on ?_ (List.nodup_range _)
  intro i hi j hj hij
  have ei := toIndex_fromIndexCoords DIMS i (List.mem_range.mp hi)
  have ej := toIndex_fromIndexCoords DIMS j (List.mem_range.mp hj)
  rw [← ei, ← ej, hij]

/-- A valid rotation permutes the grid of coordinate vectors: mapping the
coordinate update over the full grid reproduces the grid as a multiset. -/
theorem map_rotateCoords_grid {DIMS : ℕ} (r : Rotation DIMS) (hv : r.Valid) :
    Multiset.map (rotateCoords r) (gridCoords DIMS : Multiset (Fin DIMS → ℕ)) =
      (gridCoords DIMS : Multiset (Fin DIMS → ℕ)) := by
  have hnd : (gridCoords DIMS : Multiset (Fin DIMS → ℕ)).Nodup :=
    Multiset.coe_nodup.mpr (gridCoords_nodup DIMS)
  have hndm : (Multiset.map (rotateCoords r)
      (gridCoords DIMS : Multiset (Fin DIMS → ℕ))).Nodup :=
    hnd.map (rotateCoords_injective r hv)
  have hsub : Multiset.map (rotateCoords r)
      (gridCoords DIMS : Multiset (Fin DIMS → ℕ)) ⊆ (gridCoords DIMS : Multiset _) := by
    intro x hx
    obtain ⟨v, hv', rfl⟩ := Multiset.mem_map.mp hx
    rw [Multiset.mem_coe] at hv' ⊢
    rw [mem_gridCoords] at hv' ⊢
    exact validVec_rotateCoords r hv'
  have hle := (Multiset.le_iff_subset hndm).mpr hsub
  refine Multiset.eq_of_le_of_card_le hle ?_
  rw [Multiset.card_map]

/-- The reachability invariant: in every constructible cube state, the
multiset of current coordinate vectors and the multiset of original
coordinate vectors both equal the full grid. -/
theorem reachable_coords_grid {DIMS : ℕ} {c : Cube DIMS} (h : Reachable c) :
    ((c.points.map Point.coords : List (Fin DIMS → ℕ)) : Multiset (Fin DIMS → ℕ)) =
        (gridCoords DIMS : Multiset (Fin DIMS → ℕ)) ∧
      ((c.points.map Point.original_coords : List (Fin DIMS → ℕ)) : Multiset (Fin DIMS → ℕ)) =
        (gridCoords DIMS : Multiset (Fin DIMS → ℕ)) := by
  induction h with
  | base =>
      have e1 : (Cube.new DIMS).points.map Point.coords = gridCoords DIMS := by
        rw [Cube.new, gridCoords, ipow_eq_pow, List.map_map]
        rfl
      have e2 : (Cube.new DIMS).points.map Point.original_coords = gridCoords DIMS := by
        rw [Cube.new, gridCoords, ipow_eq_pow, List.map_map]
        rfl
      rw [e1, e2]
      exact ⟨rfl, rfl⟩
  | step r hr hv ih =>
      rename_i c0
      constructor
      · have e : (c0.rotate r).points.map Point.coords =
            (c0.points.map Point.coords).map (rotateCoords r) := by
          rw [Cube.rotate_points, List.map_map, List.map_map]
          exact List.map_congr_left fun p _ => Point.rotate_coords_eq p r
        rw [e, ← multiset_map_coe, ih.1, map_rotateCoords_grid r hv]
      · have e : (c0.rotate r).points.map Point.original_coords =
            c0.points.map Point.original_coords := by
          rw [Cube.rotate_points, List.map_map]
          exact List.map_congr_left fun p _ => Point.rotate_original p r
        rw [e, ih.2]

/-! ## Unsolvedness versus the solved test -/

theorem Point.dist_from_original_nonneg {DIMS : ℕ} (p : Point DIMS) :
    0 ≤ p.dist_from_original :=
  Finset.sum_nonneg fun _ _ => abs_nonneg _

theorem Point.incorrectness_nonneg {DIMS : ℕ} (p : Point DIMS) :
    0 ≤ p.incorrectness := by
  rw [Point.incorrectness]
  refine add_nonneg p.dist_from_original_nonneg ?_
  split <;> norm_num

theorem Cube.unsolvedness_nonneg {DIMS : ℕ} (c : Cube DIMS) :
    0 ≤ c.unsolvedness := by
  refine List.sum_nonneg ?_
  intro x hx
  obtain ⟨p, _, rfl⟩ := List.mem_map.mp hx
  exact p.incorrectness_nonneg

theorem Point.incorrectness_eq_zero {DIMS : ℕ} (p : Point DIMS)
    (h : p.incorrectness = 0) :
    p.is_in_original_position = true ∧ p.is_in_original_orientation = true := by
  rw [Point.incorrectness] at h
  have hd := p.dist_from_original_nonneg
  by_cases ho : p.is_in_original_orientation = true
  · rw [ho] at h
    norm_num at h
    refine ⟨?_, ho⟩
    have hz : ∀ d : Fin DIMS, |(p.coords d : ℤ) - (p.original_coords d : ℤ)| = 0 := by
      intro d
      have := (Finset.sum_eq_zero_iff_of_nonneg
        (fun d _ => abs_nonneg ((p.coords d : ℤ) - (p.original_coords d : ℤ)))).mp h
      exact this d (Finset.mem_univ d)
    have hcoords : p.coords = p.original_coords := by
      funext d
      have := abs_eq_zero.mp (hz d)
      have := sub_eq_zero.mp this
      exact_mod_cast this
    rw [Point.is_in_original_position, hcoords]
    simp
  · rw [if_neg ho] at h
    norm_num at h
    omega

theorem Cube.unsolvedness_zero_solved {DIMS : ℕ} (c : Cube DIMS)
    (h : c.unsolvedness = 0) : c.is_solved = true := by
  rw [Cube.is_solved, List.all_eq_true]
  intro p hp
  have hz : p.incorrectness = 0 := by
    refine List.all_zero_of_le_zero_le_of_sum_eq_zero ?_ h
      (List.mem_map_of_mem Point.incorrectness hp)
    intro x hx
    obtain ⟨q, _, rfl⟩ := List.mem_map.mp hx
    exact q.incorrectness_nonneg
  obtain ⟨h1, h2⟩ := p.incorrectness_eq_zero hz
  rw [h1, h2]
  rfl

/-! ## Reachability of explicit rotation words -/

theorem reachable_applyWord {DIMS : ℕ} :
    ∀ (ws : List (Rotation DIMS)) (c : Cube DIMS), Reachable c →
      (∀ r ∈ ws, r.Valid) → Reachable (applyWord c ws) := by
  intro ws
  induction ws with
  | nil => intro c h _; exact h
  | cons w ws ih =>
      intro c h hws
      exact ih (c.rotate w) (Reachable.step w h (hws w (List.mem_cons_self w ws)))
        fun r hr => hws r (List.mem_cons_of_mem w hr)

/-- Out-of-range indices wrap: decoding only ever reads `i` modulo `3 ^ DIMS`. -/
theorem fromIndexCoords_mod (DIMS i : ℕ) :
    Point.fromIndexCoords DIMS i = Point.fromIndexCoords DIMS (i % 3 ^ DIMS) := by
  funext d
  rw [fromIndexCoords_apply, fromIndexCoords_apply]
  have hsplit : 3 ^ DIMS = 3 ^ d.val * 3 ^ (DIMS - d.val) := by
    rw [← pow_add]
    congr 1
    omega
  rw [hsplit, Nat.mod_mul_right_div_self]
  have h3 : (3 : ℕ) ∣ 3 ^ (DIMS - d.val) :=
    dvd_pow_self 3 (by omega : DIMS - d.val ≠ 0)
  rw [Nat.mod_mod_of_dvd _ h3]

/-! ## The claims -/

/-- C1: for every valid rotation `r` and every point `p` with
`p.coords[r.axis] == r.side`, `Point::rotate(r)` updates the pair
`(coords[r.from], coords[r.to])` exactly according to the spec's
nine-entry table, keyed by the pair's value before the update. -/
theorem c1_rotate_position_table {DIMS : ℕ} (r : Rotation DIMS) (p : Point DIMS)
    (hv : r.Valid) (hslice : p.coords r.axis = r.side.val)
    (ha : p.coords r.from_axis < 3) (hb : p.coords r.to_axis < 3) :
    ((p.rotate r).coords r.from_axis, (p.rotate r).coords r.to_axis) =
      specTable (p.coords r.from_axis) (p.coords r.to_axis) := by
  rw [Point.rotate_coords_pair p r hslice hv.2.1]
  exact rotTable_eq_specTable _ ha _ hb

theorem c1_rotate_position_table_witness :
    g1.Valid ∧ (Point.from_index 3 0).coords g1.axis = g1.side.val ∧
      (((Point.from_index 3 0).rotate g1).coords g1.from_axis,
          ((Point.from_index 3 0).rotate g1).coords g1.to_axis) =
        specTable ((Point.from_index 3 0).coords g1.from_axis)
          ((Point.from_index 3 0).coords g1.to_axis) :=
  ⟨by decide, by decide,
    c1_rotate_position_table g1 (Point.from_index 3 0) (by decide) (by decide)
      (by decide) (by decide)⟩

/-- C2: for every valid rotation `r` and every cube state, applying
`Cube::rotate(r)` four times is the identity on the cube state;
equivalently `Cube::rotate(r)` followed by `Cube::undo_rotation(r)` is
the identity. -/
theorem c2_rotate_order_four {DIMS : ℕ} (r : Rotation DIMS) (c : Cube DIMS)
    (hv : r.Valid) :
    c.rotate_n r 4 = c ∧ (c.rotate r).undo_rotation r = c :=
  ⟨Cube.rotate_n_four c r hv, Cube.rotate_then_undo c r hv⟩

theorem c2_rotate_order_four_witness :
    g1.Valid ∧ (Cube.new 3).rotate_n g1 4 = Cube.new 3 ∧
      ((Cube.new 3).rotate g1).undo_rotation g1 = Cube.new 3 :=
  ⟨by decide,
    (c2_rotate_order_four g1 (Cube.new 3) (by decide)).1,
    (c2_rotate_order_four g1 (Cube.new 3) (by decide)).2⟩

set_option maxRecDepth 100000 in
/-- C3 counterexample: the claim "`unsolvedness() == 0` iff
`is_solved() == true` on every reachable state" is false: the state
reached from a fresh 3-dimensional cube by the valid rotation word
`(g1 g2)^63` satisfies `is_solved` (all points are back in place and the
only orientation damage sits on two center points, which `is_solved`
exempts) but has `unsolvedness = 20 ≠ 0` (`incorrectness` penalizes those
same centers). -/
theorem c3_zero_iff_solved_counterexample :
    Reachable c3cube ∧ c3cube.is_solved = true ∧ c3cube.unsolvedness ≠ 0 :=
  ⟨reachable_applyWord c3word (Cube.new 3) (Reachable.base 3) (by decide),
    by decide, by decide⟩

/-- C3 amended: on every reachable cube state, `unsolvedness()` is
non-negative and `unsolvedness() == 0` implies `is_solved() == true`; the
converse implication fails (see the counterexample). -/
theorem c3_unsolvedness_zero_solved {DIMS : ℕ} (c : Cube DIMS)
    (h : Reachable c) :
    0 ≤ c.unsolvedness ∧ (c.unsolvedness = 0 → c.is_solved = true) :=
  ⟨c.unsolvedness_nonneg, fun hz => c.unsolvedness_zero_solved hz⟩

theorem c3_unsolvedness_zero_solved_witness :
    0 ≤ (Cube.new 3).unsolvedness ∧
      ((Cube.new 3).unsolvedness = 0 → (Cube.new 3).is_solved = true) :=
  c3_unsolvedness_zero_solved (Cube.new 3) (Reachable.base 3)

/-- C4: each iteration of `Cube::solve` records the prior unsolvedness,
applies the drawn rotation `r`, and with the drawn `v ∈ [0,100)`: if the
new unsolvedness is strictly greater, `r` is undone (state restored) and
removed from the history exactly when `v < 90`; otherwise exactly when
`v < 10`; and the loop stops as soon as `is_solved()` holds, else
continues with the updated state. -/
theorem c4_solve_iteration {DIMS : ℕ} (c : Cube DIMS)
    (hist : List (Rotation DIMS)) (r : Rotation DIMS) (v : ℕ) (hv : r.Valid) :
    c.solveStep hist r v =
        (if (c.rotate r).unsolvedness > c.unsolvedness then
          if v < 90 then (c, hist) else (c.rotate r, hist ++ [r])
        else
          if v < 10 then (c, hist) else (c.rotate r, hist ++ [r])) ∧
      (∀ rest, c.is_solved = true → c.solveRun hist ((r, v) :: rest) = (c, hist)) ∧
      (∀ rest, c.is_solved = false →
        c.solveRun hist ((r, v) :: rest) =
          Cube.solveRun (c.solveStep hist r v).1 (c.solveStep hist r v).2 rest) := by
  refine ⟨Cube.solveStep_eq c r hist v hv, ?_, ?_⟩
  · intro rest hs
    rw [Cube.solveRun, if_pos hs]
  · intro rest hs
    rw [Cube.solveRun, if_neg (by rw [hs]; exact Bool.false_ne_true)]

theorem c4_solve_iteration_witness :
    (Cube.new 3).solveStep [] g1 5 =
        (if ((Cube.new 3).rotate g1).unsolvedness > (Cube.new 3).unsolvedness then
          if 5 < 90 then (Cube.new 3, ([] : List (Rotation 3)))
          else ((Cube.new 3).rotate g1, [g1])
        else
          if 5 < 10 then (Cube.new 3, ([] : List (Rotation 3)))
          else ((Cube.new 3).rotate g1, [g1])) :=
  (c4_solve_iteration (Cube.new 3) [] g1 5 (by decide)).1

/-- C5: constructing a cube with dimensionality below 3 fails with
`InvalidDimension`, and construction at dimensionality 3 or above
succeeds, yielding the freshly constructed cube. -/
theorem c5_new_checked_dimension (dims : ℕ) :
    (dims < 3 → Cube.new_checked dims = Except.error CubeError.InvalidDimension) ∧
      (3 ≤ dims → Cube.new_checked dims = Except.ok (Cube.new dims)) := by
  constructor
  · intro h
    rw [Cube.new_checked, if_pos h]
  · intro h
    rw [Cube.new_checked, if_neg (by omega)]

theorem c5_new_checked_dimension_witness :
    Cube.new_checked 2 = Except.error CubeError.InvalidDimension ∧
      Cube.new_checked 3 = Except.ok (Cube.new 3) :=
  ⟨(c5_new_checked_dimension 2).1 (by decide),
    (c5_new_checked_dimension 3).2 (by decide)⟩

/-- C6: for every valid rotation `r` and every reachable cube state, the
multiset of `coords` vectors over all points after `Cube::rotate(r)`
equals the multiset before, and equals the multiset of `original_coords`
across all points. -/
theorem c6_rotate_coords_multiset {DIMS : ℕ} (c : Cube DIMS)
    (r : Rotation DIMS) (hreach : Reachable c) (hv : r.Valid) :
    (((c.rotate r).points.map Point.coords : List (Fin DIMS → ℕ)) :
          Multiset (Fin DIMS → ℕ)) =
        ((c.points.map Point.coords : List (Fin DIMS → ℕ)) :
          Multiset (Fin DIMS → ℕ)) ∧
      (((c.rotate r).points.map Point.coords : List (Fin DIMS → ℕ)) :
          Multiset (Fin DIMS → ℕ)) =
        (((c.rotate r).points.map Point.original_coords : List (Fin DIMS → ℕ)) :
          Multiset (Fin DIMS → ℕ)) := by
  have h1 := (reachable_coords_grid hreach).1
  have h2 := reachable_coords_grid (Reachable.step r hreach hv)
  exact ⟨h2.1.trans h1.symm, h2.1.trans h2.2.symm⟩

theorem c6_rotate_coords_multiset_witness :
    ((((Cube.new 3).rotate g1).points.map Point.coords : List (Fin 3 → ℕ)) :
          Multiset (Fin 3 → ℕ)) =
        (((Cube.new 3).points.map Point.coords : List (Fin 3 → ℕ)) :
          Multiset (Fin 3 → ℕ)) ∧
      ((((Cube.new 3).rotate g1).points.map Point.coords : List (Fin 3 → ℕ)) :
          Multiset (Fin 3 → ℕ)) =
        ((((Cube.new 3).rotate g1).points.map Point.original_coords :
            List (Fin 3 → ℕ)) : Multiset (Fin 3 → ℕ)) :=
  c6_rotate_coords_multiset (Cube.new 3) g1 (Reachable.base 3) (by decide)

/-- C7: for every valid rotation `r` and point `p`, if
`p.coords[r.axis] != r.side` then `Point::rotate(r)` leaves `p` entirely
unchanged, and in every case `coords[r.axis]` is preserved. -/
theorem c7_rotate_frame {DIMS : ℕ} (r : Rotation DIMS) (p : Point DIMS)
    (hv : r.Valid) :
    (p.coords r.axis ≠ r.side.val → p.rotate r = p) ∧
      (p.rotate r).coords r.axis = p.coords r.axis :=
  ⟨fun h => Point.rotate_of_ne p r h, Point.rotate_coords_axis p r hv⟩

theorem c7_rotate_frame_witness :
    ((Point.from_index 3 1).coords g1.axis ≠ g1.side.val →
        (Point.from_index 3 1).rotate g1 = Point.from_index 3 1) ∧
      ((Point.from_index 3 1).rotate g1).coords g1.axis =
        (Point.from_index 3 1).coords g1.axis :=
  c7_rotate_frame g1 (Point.from_index 3 1) (by decide)

/-- C8: immediately after construction, for every dimension `DIMS ≥ 3`,
the cube satisfies `is_solved() == true` and `unsolvedness() == 0`. -/
theorem c8_new_solved (DIMS : ℕ) (h : 3 ≤ DIMS) :
    (Cube.new DIMS).is_solved = true ∧ (Cube.new DIMS).unsolvedness = 0 :=
  ⟨Cube.new_is_solved DIMS, Cube.new_unsolvedness DIMS⟩

theorem c8_new_solved_witness :
    (Cube.new 3).is_solved = true ∧ (Cube.new 3).unsolvedness = 0 :=
  c8_new_solved 3 (by decide)

/-- C9: for `0 ≤ i < 3^DIMS`, `Point::from_index(i)` produces the base-3
digits `coords[d] = (i / 3^d) mod 3`, and re-encoding the coordinate
vector in mixed radix 3 yields `i` back. -/
theorem c9_index_round_trip {DIMS : ℕ} (i : ℕ) (h : i < 3 ^ DIMS) :
    (∀ d : Fin DIMS, (Point.from_index DIMS i).coords d = i / 3 ^ d.val % 3) ∧
      (∑ d : Fin DIMS, (Point.from_index DIMS i).coords d * 3 ^ d.val) = i :=
  ⟨fun d => fromIndexCoords_apply DIMS i d, toIndex_fromIndexCoords DIMS i h⟩

theorem c9_index_round_trip_witness :
    (∀ d : Fin 3, (Point.from_index 3 5).coords d = 5 / 3 ^ d.val % 3) ∧
      (∑ d : Fin 3, (Point.from_index 3 5).coords d * 3 ^ d.val) = 5 :=
  c9_index_round_trip 5 (by decide)

/-- C10: `Point::from_index` is total over all natural-number indices and
silently wraps out-of-range indices: for every `i` the result equals
`Point::from_index(i mod 3^DIMS)`. -/
theorem c10_from_index_wraps (DIMS i : ℕ) :
    Point.from_index DIMS i = Point.from_index DIMS (i % 3 ^ DIMS) :=
  congrArg Point.create (fromIndexCoords_mod DIMS i)

end Ndcube
